import Mathlib

/-
Verification of the DFA core of the `formales_AFD` repository
(`afd_simulator/core/afd.py`), together with the state-removal path of the
GUI editor (`afd_simulator/gui/afd_editor.py`).

Python strings are modelled as `List Char`; alphabet symbols, which the
data model constrains to single characters, are modelled as `Char`.
The Python `dict` of transitions is modelled as an association list with
first-match lookup and in-place overwrite, matching CPython's
insertion-ordered dictionaries.  Raising `ValueError` inside a mutator is
modelled by returning the unchanged model together with `some message`;
raising inside a query is modelled with `Except`.  The unbounded `while`
loop of `generate_accepted_strings` is modelled with explicit fuel: the
result `none` means the loop has not finished within `fuel` iterations.
-/

namespace AFDSim

/-- Python strings (state identifiers, generated strings). -/
abbrev Str := List Char

/-- Association-list lookup, mirroring `self.transitions.get((state, symbol))`. -/
def dictGet : List ((Str × Char) × Str) → (Str × Char) → Option Str
  | [], _ => none
  | (k, v) :: rest, key => if k = key then some v else dictGet rest key

/-- Association-list insertion with in-place overwrite, mirroring
`self.transitions[(from_state, symbol)] = to_state` on an insertion-ordered
Python dict. -/
def dictInsert : List ((Str × Char) × Str) → (Str × Char) → Str → List ((Str × Char) × Str)
  | [], key, v => [(key, v)]
  | (k, w) :: rest, key, v =>
      if k = key then (key, v) :: rest else (k, w) :: dictInsert rest key v

/-- The DFA model: the five components held by the Python class `AFD`. -/
structure AFD where
  states : Finset Str
  alphabet : Finset Char
  initial_state : Option Str
  accepting_states : Finset Str
  transitions : List ((Str × Char) × Str)
deriving DecidableEq

/-- The empty automaton built by `AFD.__init__`. -/
def emptyAFD : AFD := ⟨∅, ∅, none, ∅, []⟩

/-- Embedding of `AFD.add_state`. -/
def add_state (m : AFD) (s : Str) : AFD :=
  { m with states := insert s m.states }

/-- Embedding of `AFD.add_symbol`. -/
def add_symbol (m : AFD) (c : Char) : AFD :=
  { m with alphabet := insert c m.alphabet }

/-- Embedding of `AFD.set_initial_state`: raising is returning the unchanged
model with an error message. -/
def set_initial_state (m : AFD) (s : Str) : AFD × Option String :=
  if s ∉ m.states then (m, some "el estado no esta en el conjunto de estados")
  else ({ m with initial_state := some s }, none)

/-- Embedding of `AFD.add_accepting_state`. -/
def add_accepting_state (m : AFD) (s : Str) : AFD × Option String :=
  if s ∉ m.states then (m, some "el estado no esta en el conjunto de estados")
  else ({ m with accepting_states := insert s m.accepting_states }, none)

/-- Embedding of `AFD.add_transition`: the three reference checks happen, in
source order, before the single dictionary write. -/
def add_transition (m : AFD) (f : Str) (c : Char) (t : Str) : AFD × Option String :=
  if f ∉ m.states then (m, some "el estado origen no esta en el conjunto de estados")
  else if t ∉ m.states then (m, some "el estado destino no esta en el conjunto de estados")
  else if c ∉ m.alphabet then (m, some "el simbolo no esta en el alfabeto")
  else ({ m with transitions := dictInsert m.transitions (f, c) t }, none)

/-- Embedding of `AFD.is_valid`: the guard chain of the source, ending in the
totality scan over `states × alphabet`. -/
def is_valid (m : AFD) : Bool :=
  if m.states = ∅ then false
  else if m.alphabet = ∅ then false
  else
    match m.initial_state with
    | none => false
    | some q0 =>
        if q0 ∉ m.states then false
        else if ¬ m.accepting_states ⊆ m.states then false
        else decide (∀ s ∈ m.states, ∀ c ∈ m.alphabet, (dictGet m.transitions (s, c)).isSome)

/-- The simulation loop of `AFD.evaluate_string`: final state and transition
path, `none` when a transition is missing. -/
def runTrace (m : AFD) : Str → Str → Option (Str × List (Str × Char × Str))
  | q, [] => some (q, [])
  | q, c :: cs =>
      match dictGet m.transitions (q, c) with
      | none => none
      | some q2 =>
          match runTrace m q2 cs with
          | none => none
          | some (qf, tr) => some (qf, (q, c, q2) :: tr)

/-- Final state of the simulation loop, ignoring the recorded path. -/
def runState (m : AFD) : Str → Str → Option Str
  | q, [] => some q
  | q, c :: cs =>
      match dictGet m.transitions (q, c) with
      | none => none
      | some q2 => runState m q2 cs

/-- Embedding of `AFD.evaluate_string`. -/
def evaluate_string (m : AFD) (input : Str) : Except String (Bool × List (Str × Char × Str)) :=
  if is_valid m = false then .error "El AFD no esta correctamente definido"
  else if input.all (fun c => decide (c ∈ m.alphabet)) = false then
    .error "simbolo no esta en el alfabeto"
  else
    match m.initial_state with
    | none => .error "El AFD no esta correctamente definido"
    | some q0 =>
        match runTrace m q0 input with
        | none => .error "No hay transicion definida"
        | some (qf, tr) => .ok (decide (qf ∈ m.accepting_states), tr)

/-- Successor queue entries of one BFS node: `for symbol in alphabet_list`. -/
def childrenOf (m : AFD) (alist : List Char) (s : Str) (q : Str) : List (Str × Str) :=
  alist.filterMap fun c =>
    (dictGet m.transitions (q, c)).map fun q2 => (s ++ [c], q2)

/-- Fuel-indexed embedding of the `while` loop of
`AFD.generate_accepted_strings`; `none` means the loop has not terminated
within `fuel` iterations. -/
def bfs (m : AFD) (alist : List Char) (maxCount : Nat) :
    Nat → List (Str × Str) → Finset (Str × Nat) → List Str → Option (List Str)
  | 0, _, _, _ => none
  | Nat.succ _, [], _, acc => some acc
  | Nat.succ fuel, (s, q) :: rest, visited, acc =>
      if maxCount ≤ acc.length then some acc
      else if (q, s.length) ∈ visited then bfs m alist maxCount fuel rest visited acc
      else
        bfs m alist maxCount fuel (rest ++ childrenOf m alist s q)
          (insert (q, s.length) visited)
          (if q ∈ m.accepting_states ∧ s ≠ [] then acc ++ [s] else acc)

/-- Embedding of `AFD.generate_accepted_strings`.  `alist` is the list
`list(self.alphabet)`, whose order the Python set leaves unspecified, so it
is an explicit parameter; `none` covers both the invalid-model `ValueError`
and fuel exhaustion of the unbounded loop. -/
def generate_accepted_strings (m : AFD) (alist : List Char) (maxCount : Nat) (fuel : Nat) :
    Option (List Str) :=
  if is_valid m = false then none
  else
    match m.initial_state with
    | none => none
    | some q0 => (bfs m alist maxCount fuel [([], q0)] ∅ []).map (List.take maxCount)

/-- Transition field of a persisted document: the canonical list encoding
(array of `from_state`/`symbol`/`to_state` records) or the legacy map
encoding (keys `"from,symbol"`, values `to`), both accepted by
`AFD.load_from_file`. -/
inductive TransEnc where
  | listEnc : List (Str × Char × Str) → TransEnc
  | mapEnc : List (Str × Str) → TransEnc
deriving DecidableEq

/-- Persisted document shape written by `AFD.save_to_file` and read by
`AFD.load_from_file`. -/
structure Doc where
  states : List Str
  alphabet : List Char
  initial_state : Option Str
  accepting_states : List Str
  transitions : TransEnc
deriving DecidableEq

/-- Embedding of `AFD.save_to_file`.  Python's `list(set)` enumerates each
element exactly once in an unspecified order, so the three enumerations are
explicit parameters, constrained in the theorems to list exactly the
elements of the corresponding set; the dict of transitions is written in
its own (insertion) order. -/
def serialize (m : AFD) (sl : List Str) (al : List Char) (accl : List Str) : Doc :=
  { states := sl
    alphabet := al
    initial_state := m.initial_state
    accepting_states := accl
    transitions := .listEnc (m.transitions.map fun e => (e.1.1, e.1.2, e.2)) }

/-- Loading loop over the document's `states` array. -/
def loadStates (m : AFD) : List Str → AFD
  | [] => m
  | s :: rest => loadStates (add_state m s) rest

/-- Loading loop over the document's `alphabet` array. -/
def loadSymbols (m : AFD) : List Char → AFD
  | [] => m
  | c :: rest => loadSymbols (add_symbol m c) rest

/-- Loading of `initial_state`: a `null` value is skipped, not assigned. -/
def loadInitial (m : AFD) : Option Str → Except String AFD
  | none => .ok m
  | some s =>
      match set_initial_state m s with
      | (m2, none) => .ok m2
      | (_, some e) => .error e

/-- Loading loop over the document's `accepting_states` array. -/
def loadAccepting (m : AFD) : List Str → Except String AFD
  | [] => .ok m
  | s :: rest =>
      match add_accepting_state m s with
      | (m2, none) => loadAccepting m2 rest
      | (_, some e) => .error e

/-- Loading loop for the canonical list encoding of transitions. -/
def loadTransList (m : AFD) : List (Str × Char × Str) → Except String AFD
  | [] => .ok m
  | r :: rest =>
      match add_transition m r.1 r.2.1 r.2.2 with
      | (m2, none) => loadTransList m2 rest
      | (_, some e) => .error e

/-- Splitting of a legacy transition key at its last comma, mirroring
`transition_key.rfind(',')` followed by the two slices; `none` when the key
contains no comma. -/
def splitLastComma : Str → Option (Str × Str)
  | [] => none
  | c :: rest =>
      match splitLastComma rest with
      | some (f, s) => some (c :: f, s)
      | none => if c = ',' then some ([], rest) else none

/-- Loading loop for the legacy map encoding of transitions.  A key without
a comma raises; a symbol slice that is not a single registered character
fails the alphabet check inside `add_transition`. -/
def loadTransMap (m : AFD) : List (Str × Str) → Except String AFD
  | [] => .ok m
  | (key, t) :: rest =>
      match splitLastComma key with
      | none => .error "Formato de transicion invalido"
      | some (f, sym) =>
          match sym with
          | [c] =>
              match add_transition m f c t with
              | (m2, none) => loadTransMap m2 rest
              | (_, some e) => .error e
          | _ => .error "el simbolo no esta en el alfabeto"

/-- Embedding of `AFD.load_from_file`: states, then alphabet, then the
optional initial state, then accepting states, then transitions in either
encoding. -/
def deserialize (d : Doc) : Except String AFD :=
  let m0 := loadStates emptyAFD d.states
  let m1 := loadSymbols m0 d.alphabet
  match loadInitial m1 d.initial_state with
  | .error e => .error e
  | .ok m2 =>
      match loadAccepting m2 d.accepting_states with
      | .error e => .error e
      | .ok m3 =>
          match d.transitions with
          | .listEnc l => loadTransList m3 l
          | .mapEnc l => loadTransMap m3 l

/-- Form state of the GUI editor (`AFDEditor`): the states listbox, the
alphabet listbox, the initial-state combobox value, the accepting-states
listbox and the rows of the transitions tree. -/
structure EditorState where
  statesList : List Str
  alphabetList : List Char
  initialVar : Str
  acceptingList : List Str
  transRows : List (Str × Char × Str)
deriving DecidableEq

/-- Loop of `update_afd` over the accepting-states listbox: non-empty
entries that are registered states are added, the rest are skipped. -/
def editorAccepting (m : AFD) : List Str → AFD
  | [] => m
  | s :: rest =>
      editorAccepting (if s ≠ [] ∧ s ∈ m.states then (add_accepting_state m s).1 else m) rest

/-- Loop of `update_afd` over the transition-tree rows: rows whose source,
symbol and target are all registered are added, the rest are skipped. -/
def editorTransitions (m : AFD) : List (Str × Char × Str) → AFD
  | [] => m
  | r :: rest =>
      editorTransitions
        (if r.1 ∈ m.states ∧ r.2.1 ∈ m.alphabet ∧ r.2.2 ∈ m.states then
          (add_transition m r.1 r.2.1 r.2.2).1
        else m) rest

/-- Embedding of `AFDEditor.update_afd`: the model's state set, alphabet,
accepting set and transitions are cleared and rebuilt from the widgets, each
stage skipping entries whose referents are not registered.  The source does
not clear `initial_state`, so the previous model's value (`prevInitial`)
persists whenever the combobox value is empty or unregistered. -/
def update_afd (prevInitial : Option Str) (E : EditorState) : AFD :=
  let m := loadStates (⟨∅, ∅, prevInitial, ∅, []⟩ : AFD)
    (E.statesList.filter (fun s => s ≠ []))
  let m := loadSymbols m E.alphabetList
  let m :=
    if E.initialVar ≠ [] ∧ E.initialVar ∈ m.states then (set_initial_state m E.initialVar).1
    else m
  editorTransitions (editorAccepting m E.acceptingList) E.transRows

/-- Embedding of `AFDEditor.remove_state`: the selected index is deleted
from the states listbox, after which the model is rebuilt by `update_afd`. -/
def editor_remove_state (E : EditorState) (i : Nat) : EditorState :=
  { E with statesList := E.statesList.eraseIdx i }

/-- Position of a symbol in the materialized alphabet list: the order the
BFS enumerates symbols in. -/
def symIdx (alist : List Char) (c : Char) : Nat :=
  alist.indexOf c

/-- Lexicographic strict order on equal-length strings induced by the
position of each symbol in the alphabet list. -/
def lexLtB (alist : List Char) : Str → Str → Bool
  | _, [] => false
  | [], _ :: _ => true
  | a :: s, b :: t =>
      if a = b then lexLtB alist s t else decide (symIdx alist a < symIdx alist b)

/-- Shortlex order on generated strings: shorter first, then `lexLtB` within
equal length. -/
def shortLex (alist : List Char) (s t : Str) : Prop :=
  s.length < t.length ∨ (s.length = t.length ∧ lexLtB alist s t = true)

/-- Ordering invariant between two entries of the BFS queue, in queue order:
depths differ by at most one, equal depths are strictly lexicographically
ordered, and an entry one level deeper descends from a node strictly before
the shallower entry. -/
def queueRel (alist : List Char) (a b : Str × Str) : Prop :=
  a.1.length ≤ b.1.length ∧ b.1.length ≤ a.1.length + 1 ∧
  (a.1.length = b.1.length → lexLtB alist a.1 b.1 = true) ∧
  (b.1.length = a.1.length + 1 → lexLtB alist b.1.dropLast a.1 = true)

/-- Ordering invariant between two collected strings, in output order:
non-decreasing length and strictly lexicographic within equal length. -/
def accRel (alist : List Char) (s t : Str) : Prop :=
  s.length ≤ t.length ∧ (s.length = t.length → lexLtB alist s t = true)

/-- Loop invariant of the BFS of `generate_accepted_strings`: the queue and
the collected strings are shortlex-ordered, everything collected precedes
everything queued, every queue entry records the state its string reaches
from the initial state, and every collected string is a non-empty string
over the alphabet whose run ends in an accepting state. -/
def bfsInv (m : AFD) (alist : List Char) (q0 : Str)
    (queue : List (Str × Str)) (acc : List Str) : Prop :=
  List.Pairwise (queueRel alist) queue ∧
  List.Pairwise (accRel alist) acc ∧
  (∀ s ∈ acc, ∀ t ∈ queue, accRel alist s t.1) ∧
  (∀ t ∈ queue, runState m q0 t.1 = some t.2 ∧ ∀ c ∈ t.1, c ∈ m.alphabet) ∧
  (∀ s ∈ acc, (∃ q, runState m q0 s = some q ∧ q ∈ m.accepting_states) ∧
    (∀ c ∈ s, c ∈ m.alphabet) ∧ s ≠ [])

/-- Concrete automaton accepting binary strings that end in 1. -/
def exM : AFD :=
  ⟨{['q','0'], ['q','1']}, {'0','1'}, some ['q','0'], {['q','1']},
    [((['q','0'],'0'),['q','0']), ((['q','0'],'1'),['q','1']),
     ((['q','1'],'0'),['q','0']), ((['q','1'],'1'),['q','1'])]⟩

/-- Concrete complete automaton with an empty set of accepting states: a
single state looping on the single symbol. -/
def loopM : AFD :=
  ⟨{['q']}, {'a'}, some ['q'], ∅, [((['q'],'a'),['q'])]⟩

/-- Concrete complete automaton over a two-symbol alphabet whose one state
accepts, so every non-empty string is accepted. -/
def twoSymM : AFD :=
  ⟨{['q']}, {'a','b'}, some ['q'], {['q']},
    [((['q'],'a'),['q']), ((['q'],'b'),['q'])]⟩

section Theorems

/-- Characterization of the `is_valid` guard chain. -/
theorem is_valid_iff (m : AFD) :
    is_valid m = true ↔
      (m.states.Nonempty ∧ m.alphabet.Nonempty ∧
        (∃ q0, m.initial_state = some q0 ∧ q0 ∈ m.states) ∧
        m.accepting_states ⊆ m.states ∧
        ∀ s ∈ m.states, ∀ c ∈ m.alphabet, (dictGet m.transitions (s, c)).isSome = true) := by
  unfold is_valid
  rcases hini : m.initial_state with _ | q0 <;>
    simp only [hini] <;> split_ifs <;>
    simp_all [Finset.nonempty_iff_ne_empty]

/-- C2: `is_valid` returns true exactly when states and alphabet are
non-empty, the initial state is set and registered, the accepting states are
a subset of the states, and every pair of `states × alphabet` has a
transition. -/
theorem C2_is_valid_iff (m : AFD) :
    is_valid m = true ↔
      (m.states.Nonempty ∧ m.alphabet.Nonempty ∧
        (∃ q0, m.initial_state = some q0 ∧ q0 ∈ m.states) ∧
        m.accepting_states ⊆ m.states ∧
        ∀ s ∈ m.states, ∀ c ∈ m.alphabet, (dictGet m.transitions (s, c)).isSome = true) :=
  is_valid_iff m

/-- C10: `add_state` and `add_symbol` always succeed, register the new
identifier, and absorb duplicates silently: re-adding a registered state or
symbol leaves the model unchanged. -/
theorem C10_add_total_idempotent (m : AFD) (s : Str) (c : Char) :
    (add_state m s).states = insert s m.states ∧
    (add_symbol m c).alphabet = insert c m.alphabet ∧
    (s ∈ m.states → add_state m s = m) ∧
    (c ∈ m.alphabet → add_symbol m c = m) := by
  refine ⟨rfl, rfl, fun hs => ?_, fun hc => ?_⟩
  · cases m
    simp [add_state, Finset.insert_eq_self.mpr hs]
  · cases m
    simp [add_symbol, Finset.insert_eq_self.mpr hc]

/-- C10 witness: adding the already-registered state and symbol of a
concrete model changes nothing. -/
theorem C10_witness :
    add_state ⟨{['q']}, {'a'}, some ['q'], ∅, []⟩ ['q'] = ⟨{['q']}, {'a'}, some ['q'], ∅, []⟩ ∧
    add_symbol ⟨{['q']}, {'a'}, some ['q'], ∅, []⟩ 'a' = ⟨{['q']}, {'a'}, some ['q'], ∅, []⟩ :=
  ⟨(C10_add_total_idempotent _ ['q'] 'a').2.2.1 (by decide),
   (C10_add_total_idempotent _ ['q'] 'a').2.2.2 (by decide)⟩

/-- C8: each failing mutator leaves the model exactly as it was;
`set_initial_state` fails exactly on an unregistered state, `add_transition`
fails exactly when one of its three referents is unregistered, and
`add_transition` never changes the state set or the alphabet. -/
theorem C8_mutators_atomic (m : AFD) (s f t : Str) (c : Char) :
    ((set_initial_state m s).2.isSome → (set_initial_state m s).1 = m) ∧
    ((add_accepting_state m s).2.isSome → (add_accepting_state m s).1 = m) ∧
    ((add_transition m f c t).2.isSome → (add_transition m f c t).1 = m) ∧
    (add_transition m f c t).1.states = m.states ∧
    (add_transition m f c t).1.alphabet = m.alphabet ∧
    ((set_initial_state m s).2.isSome ↔ s ∉ m.states) ∧
    ((add_transition m f c t).2.isSome ↔ (f ∉ m.states ∨ t ∉ m.states ∨ c ∉ m.alphabet)) := by
  unfold set_initial_state add_accepting_state add_transition
  split_ifs <;> simp_all

/-- C8 witness: on a concrete model, a transition with an unregistered
target state is rejected and the model is unchanged. -/
theorem C8_witness :
    (add_transition ⟨{['q']}, {'a'}, some ['q'], ∅, []⟩ ['q'] 'a' ['r']).2.isSome = true ∧
    (add_transition ⟨{['q']}, {'a'}, some ['q'], ∅, []⟩ ['q'] 'a' ['r']).1 =
      ⟨{['q']}, {'a'}, some ['q'], ∅, []⟩ :=
  have h := C8_mutators_atomic ⟨{['q']}, {'a'}, some ['q'], ∅, []⟩ ['q'] ['q'] ['r'] 'a'
  have hfail : (add_transition ⟨{['q']}, {'a'}, some ['q'], ∅, []⟩ ['q'] 'a' ['r']).2.isSome :=
    h.2.2.2.2.2.2.mpr (Or.inr (Or.inl (by decide)))
  ⟨hfail, h.2.2.1 hfail⟩

/-- A successful association-list lookup returns an entry of the list. -/
theorem dictGet_mem {l : List ((Str × Char) × Str)} {k : Str × Char} {v : Str}
    (h : dictGet l k = some v) : (k, v) ∈ l := by
  induction l with
  | nil => simp [dictGet] at h
  | cons e rest ih =>
    rw [dictGet] at h
    split_ifs at h with he
    · cases h
      subst he
      exact List.mem_cons_self ..
    · exact List.mem_cons_of_mem _ (ih h)

/-- On a valid model whose transition targets are registered states, the
simulation loop never misses a transition. -/
theorem runTrace_total (m : AFD) (hval : is_valid m = true)
    (hwf : ∀ e ∈ m.transitions, e.2 ∈ m.states) :
    ∀ (input : Str) (q : Str), q ∈ m.states → (∀ c ∈ input, c ∈ m.alphabet) →
      ∃ qf tr, runTrace m q input = some (qf, tr) := by
  intro input
  induction input with
  | nil => exact fun q _ _ => ⟨q, [], rfl⟩
  | cons c cs ih =>
    intro q hq hcs
    have htot := ((is_valid_iff m).mp hval).2.2.2.2 q hq c (hcs c (List.mem_cons_self ..))
    rcases Option.isSome_iff_exists.mp htot with ⟨q2, hq2⟩
    have hq2mem : q2 ∈ m.states := hwf _ (dictGet_mem hq2)
    rcases ih q2 hq2mem (fun d hd => hcs d (List.mem_cons_of_mem _ hd)) with ⟨qf, tr, htr⟩
    refine ⟨qf, (q, c, q2) :: tr, ?_⟩
    rw [runTrace]
    simp only [hq2, htr]

/-- The trace of a truncated input is the truncation of the trace. -/
theorem runTrace_take (m : AFD) :
    ∀ (input : Str) (k : Nat) (q qf : Str) (tr : List (Str × Char × Str)),
      runTrace m q input = some (qf, tr) →
      ∃ qf2, runTrace m q (input.take k) = some (qf2, tr.take k) := by
  intro input
  induction input with
  | nil =>
    intro k q qf tr h
    rw [runTrace] at h
    cases h
    exact ⟨q, by cases k <;> rfl⟩
  | cons c cs ih =>
    intro k q qf tr h
    rw [runTrace] at h
    rcases hg : dictGet m.transitions (q, c) with _ | q2 <;> simp only [hg] at h
    · exact absurd h (by simp)
    rcases htr : runTrace m q2 cs with _ | p <;>
      simp only [htr, Option.some.injEq, Prod.mk.injEq] at h
    · exact absurd h (by simp)
    rcases p with ⟨qf1, tr1⟩
    rcases h with ⟨h1, h2⟩
    subst h1
    subst h2
    cases k with
    | zero => exact ⟨q, rfl⟩
    | succ k =>
      rcases ih k q2 qf1 tr1 htr with ⟨qf2, h2⟩
      refine ⟨qf2, ?_⟩
      rw [List.take_succ_cons, runTrace]
      simp only [hg, h2, List.take_succ_cons]

/-- C7: on a valid model the empty string evaluates to acceptance of the
initial state with an empty trace, and evaluation is consistent under taking
a leading slice of the input: the trace of `input[:k]` is the first `k`
triples of the trace of `input`. -/
theorem C7_evaluate_empty_and_slices (m : AFD) (q0 : Str)
    (hval : is_valid m = true) (hini : m.initial_state = some q0)
    (hwf : ∀ e ∈ m.transitions, e.2 ∈ m.states) :
    evaluate_string m [] = .ok (decide (q0 ∈ m.accepting_states), []) ∧
    ∀ (input : Str) (k : Nat), (∀ c ∈ input, c ∈ m.alphabet) →
      ∃ b tr b2 tr2, evaluate_string m input = .ok (b, tr) ∧
        evaluate_string m (input.take k) = .ok (b2, tr2) ∧ tr2 = tr.take k := by
  have hq0 : q0 ∈ m.states := by
    rcases ((is_valid_iff m).mp hval).2.2.1 with ⟨q1, hq1, hmem⟩
    rw [hini] at hq1
    cases hq1
    exact hmem
  constructor
  · unfold evaluate_string
    rw [hval, hini]
    rfl
  · intro input k hin
    rcases runTrace_total m hval hwf input q0 hq0 hin with ⟨qf, tr, htr⟩
    rcases runTrace_take m input k q0 qf tr htr with ⟨qf2, htr2⟩
    have hall : (List.all input fun c => decide (c ∈ m.alphabet)) = true := by
      simp only [List.all_eq_true, decide_eq_true_eq]
      exact hin
    have hall2 : (List.all (input.take k) fun c => decide (c ∈ m.alphabet)) = true := by
      simp only [List.all_eq_true, decide_eq_true_eq]
      exact fun c hc => hin c (List.mem_of_mem_take hc)
    refine ⟨decide (qf ∈ m.accepting_states), tr,
      decide (qf2 ∈ m.accepting_states), tr.take k, ?_, ?_, rfl⟩
    · unfold evaluate_string
      rw [hval, hini]
      simp [hall, htr]
    · unfold evaluate_string
      rw [hval, hini]
      simp [hall2, htr2]

/-- C7 witness: the concrete automaton `exM`, the input "101" and the slice
length 2. -/
theorem C7_witness :
    (∃ b tr b2 tr2,
      evaluate_string exM ['1','0','1'] = .ok (b, tr) ∧
      evaluate_string exM (['1','0','1'].take 2) = .ok (b2, tr2) ∧ tr2 = tr.take 2) ∧
    evaluate_string exM [] = .ok (decide (['q','0'] ∈ exM.accepting_states), []) :=
  have h := C7_evaluate_empty_and_slices exM ['q','0'] (by decide) rfl (by decide)
  ⟨h.2 ['1','0','1'] 2 (by decide), h.1⟩

/-- One BFS step of `loopM` from the length-`n` frontier reaches the
length-`n+1` frontier with nothing collected; by induction the loop
condition never becomes false, whatever the fuel. -/
theorem bfs_loopM_never (fuel : Nat) :
    ∀ n : Nat, bfs loopM ['a'] 1 fuel [(List.replicate n 'a', ['q'])]
      ((Finset.range n).image fun i => (['q'], i)) [] = none := by
  induction fuel with
  | zero => intro n; rfl
  | succ fuel ih =>
    intro n
    rw [bfs]
    have hvis : ((['q'] : Str), (List.replicate n 'a').length) ∉
        (Finset.range n).image fun i => ((['q'] : Str), i) := by
      simp
    rw [if_neg (by simp), if_neg hvis]
    have hchild : childrenOf loopM ['a'] (List.replicate n 'a') ['q'] =
        [(List.replicate (n + 1) 'a', ['q'])] := by
      simp [childrenOf, loopM, dictGet, List.replicate_succ']
    have hins : insert (['q'], (List.replicate n 'a').length)
          ((Finset.range n).image fun i => ((['q'] : Str), i)) =
        (Finset.range (n + 1)).image fun i => ((['q'] : Str), i) := by
      rw [List.length_replicate, Finset.range_succ, Finset.image_insert]
    have hacc : (if (['q'] : Str) ∈ loopM.accepting_states ∧ List.replicate n 'a' ≠ []
        then ([] : List Str) ++ [List.replicate n 'a'] else []) = [] := by
      simp [loopM]
    rw [hchild, hins, hacc]
    exact ih (n + 1)

/-- C1 (refuted by the code): `loopM` is a valid automaton in which no
accepting state is reachable (its accepting set is empty), yet
`generate_accepted_strings` with limit 1 never finishes: the loop has not
terminated after any number of iterations, because the complete automaton
refills the frontier forever while no accepted string is ever collected. -/
theorem C1_no_accepting_nonterminating :
    is_valid loopM = true ∧ loopM.accepting_states = ∅ ∧
    ∀ fuel, generate_accepted_strings loopM ['a'] 1 fuel = none := by
  refine ⟨by decide, rfl, fun fuel => ?_⟩
  unfold generate_accepted_strings
  rw [show is_valid loopM = true from by decide]
  have h := bfs_loopM_never fuel 0
  simp only [List.replicate_zero, Finset.range_zero, Finset.image_empty] at h
  simp only [loopM] at h ⊢
  rw [h]
  rfl

/-- Loading the states array unions it into the state set and touches
nothing else. -/
theorem loadStates_spec : ∀ (l : List Str) (m : AFD),
    loadStates m l = { m with states := m.states ∪ l.toFinset } := by
  intro l
  induction l with
  | nil => intro m; rw [loadStates]; cases m; simp
  | cons s rest ih =>
    intro m
    rw [loadStates, ih]
    cases m
    simp [add_state, Finset.insert_union, Finset.union_insert]

/-- Loading the alphabet array unions it into the alphabet and touches
nothing else. -/
theorem loadSymbols_spec : ∀ (l : List Char) (m : AFD),
    loadSymbols m l = { m with alphabet := m.alphabet ∪ l.toFinset } := by
  intro l
  induction l with
  | nil => intro m; rw [loadSymbols]; cases m; simp
  | cons c rest ih =>
    intro m
    rw [loadSymbols, ih]
    cases m
    simp [add_symbol, Finset.insert_union, Finset.union_insert]

/-- One successful step of the accepting-states loading loop. -/
theorem loadAccepting_cons_ok (m m2 : AFD) (s : Str) (rest : List Str)
    (h : add_accepting_state m s = (m2, none)) :
    loadAccepting m (s :: rest) = loadAccepting m2 rest := by
  rw [loadAccepting, h]

/-- One successful step of the list-encoded transition loading loop. -/
theorem loadTransList_cons_ok (m m2 : AFD) (r : Str × Char × Str)
    (rest : List (Str × Char × Str))
    (h : add_transition m r.1 r.2.1 r.2.2 = (m2, none)) :
    loadTransList m (r :: rest) = loadTransList m2 rest := by
  rw [loadTransList, h]

/-- A registered accepting state is inserted without an error. -/
theorem add_accepting_state_ok (m : AFD) (s : Str) (hs : s ∈ m.states) :
    add_accepting_state m s =
      ({ m with accepting_states := insert s m.accepting_states }, none) := by
  unfold add_accepting_state
  rw [if_neg (by simpa using hs)]

/-- A transition with registered referents is written without an error. -/
theorem add_transition_ok (m : AFD) (f : Str) (c : Char) (t : Str)
    (hf : f ∈ m.states) (ht : t ∈ m.states) (hc : c ∈ m.alphabet) :
    add_transition m f c t =
      ({ m with transitions := dictInsert m.transitions (f, c) t }, none) := by
  unfold add_transition
  rw [if_neg (by simpa using hf), if_neg (by simpa using ht), if_neg (by simpa using hc)]

/-- Loading accepting states whose referents are registered succeeds and
unions them into the accepting set. -/
theorem loadAccepting_ok : ∀ (l : List Str) (m : AFD), (∀ s ∈ l, s ∈ m.states) →
    loadAccepting m l = .ok { m with accepting_states := m.accepting_states ∪ l.toFinset } := by
  intro l
  induction l with
  | nil => intro m _; rw [loadAccepting]; cases m; simp
  | cons s rest ih =>
    intro m hmem
    have hs : s ∈ m.states := hmem s (List.mem_cons_self ..)
    rw [loadAccepting_cons_ok m _ s rest (add_accepting_state_ok m s hs)]
    rw [ih { m with accepting_states := insert s m.accepting_states }
      (fun x hx => hmem x (List.mem_cons_of_mem _ hx))]
    cases m
    simp [Finset.insert_union, Finset.union_insert]

/-- Inserting an absent key appends the pair at the end of the dict. -/
theorem dictInsert_not_mem : ∀ (l : List ((Str × Char) × Str)) (k : Str × Char) (v : Str),
    dictGet l k = none → dictInsert l k v = l ++ [(k, v)] := by
  intro l
  induction l with
  | nil => intro k v _; rfl
  | cons e rest ih =>
    intro k v h
    rcases e with ⟨k1, v1⟩
    rw [dictGet] at h
    by_cases he : k1 = k
    · rw [if_pos he] at h
      cases h
    · rw [if_neg he] at h
      rw [dictInsert, if_neg he, ih k v h]
      rfl

/-- Lookup distributes over dict concatenation, first dict first. -/
theorem dictGet_append : ∀ (l1 l2 : List ((Str × Char) × Str)) (k : Str × Char),
    dictGet (l1 ++ l2) k =
      match dictGet l1 k with
      | some v => some v
      | none => dictGet l2 k := by
  intro l1
  induction l1 with
  | nil => intro l2 k; rfl
  | cons e rest ih =>
    intro l2 k
    rcases e with ⟨k1, v1⟩
    rw [List.cons_append, dictGet, dictGet]
    by_cases he : k1 = k
    · rw [if_pos he, if_pos he]
    · rw [if_neg he, if_neg he, ih l2 k]

/-- Loading a list-encoded transitions array whose referents are registered
and whose keys are fresh and pairwise distinct appends it to the dict. -/
theorem loadTransList_ok : ∀ (l : List ((Str × Char) × Str)) (m : AFD),
    (∀ e ∈ l, e.1.1 ∈ m.states ∧ e.2 ∈ m.states ∧ e.1.2 ∈ m.alphabet) →
    (∀ e ∈ l, dictGet m.transitions e.1 = none) →
    (l.map fun e => e.1).Nodup →
    loadTransList m (l.map fun e => (e.1.1, e.1.2, e.2)) =
      .ok { m with transitions := m.transitions ++ l } := by
  intro l
  induction l with
  | nil => intro m _ _ _; rw [List.map_nil, loadTransList]; cases m; simp
  | cons e rest ih =>
    intro m hmem hfresh hnd
    rcases e with ⟨⟨f, c⟩, t⟩
    rcases hmem _ (List.mem_cons_self ..) with ⟨hf, ht, hc⟩
    rw [List.map_cons]
    rw [loadTransList_cons_ok m _ _ _ (add_transition_ok m f c t hf ht hc)]
    rw [dictInsert_not_mem _ _ _ (hfresh _ (List.mem_cons_self ..))]
    rw [List.map_cons, List.nodup_cons] at hnd
    rw [ih { m with transitions := m.transitions ++ [((f, c), t)] }
      (fun x hx => hmem x (List.mem_cons_of_mem _ hx))
      (fun x hx => ?_) hnd.2]
    · cases m
      simp
    · rw [dictGet_append]
      rw [hfresh x (List.mem_cons_of_mem _ hx)]
      have hkey : x.1 ∈ List.map (fun e => e.1) rest := List.mem_map_of_mem _ hx
      have hne : ((f, c) : Str × Char) ≠ x.1 := by
        intro hco
        refine hnd.1 ?_
        rw [hco]
        exact hkey
      simp [dictGet, hne]

/-- C5: loading back a saved model yields the original, field by field, for
every model the mutator interface can build — complete or not, with the
unset initial state written as null and skipped on load, and with an empty
accepting set preserved. -/
theorem C5_roundtrip (m : AFD) (sl : List Str) (al : List Char) (accl : List Str)
    (hsl : sl.toFinset = m.states)
    (hal : al.toFinset = m.alphabet)
    (haccl : accl.toFinset = m.accepting_states)
    (hini : ∀ q0, m.initial_state = some q0 → q0 ∈ m.states)
    (hacc : m.accepting_states ⊆ m.states)
    (htr : ∀ e ∈ m.transitions, e.1.1 ∈ m.states ∧ e.2 ∈ m.states ∧ e.1.2 ∈ m.alphabet)
    (hkeys : (m.transitions.map fun e => e.1).Nodup) :
    deserialize (serialize m sl al accl) = .ok m := by
  have hm1 : loadInitial (⟨m.states, m.alphabet, none, ∅, []⟩ : AFD) m.initial_state =
      .ok (⟨m.states, m.alphabet, m.initial_state, ∅, []⟩ : AFD) := by
    rcases h0 : m.initial_state with _ | q0
    · rfl
    · rw [loadInitial]
      unfold set_initial_state
      rw [if_neg (by simpa using hini q0 h0)]
  have hm3 : loadAccepting (⟨m.states, m.alphabet, m.initial_state, ∅, []⟩ : AFD) accl =
      .ok (⟨m.states, m.alphabet, m.initial_state, m.accepting_states, []⟩ : AFD) := by
    rw [loadAccepting_ok accl (⟨m.states, m.alphabet, m.initial_state, ∅, []⟩ : AFD)
      (fun s hs => hacc (by
        rw [← haccl]
        simpa using hs))]
    simp [haccl]
  have hm4 : loadTransList (⟨m.states, m.alphabet, m.initial_state, m.accepting_states, []⟩ : AFD)
      (m.transitions.map fun e => (e.1.1, e.1.2, e.2)) = .ok m := by
    rw [loadTransList_ok m.transitions
      (⟨m.states, m.alphabet, m.initial_state, m.accepting_states, []⟩ : AFD)
      htr (fun e _ => rfl) hkeys]
    cases m
    simp
  simp only [deserialize, serialize]
  rw [loadStates_spec, loadSymbols_spec]
  simp only [emptyAFD, Finset.empty_union, hsl, hal]
  simp only [hm1, hm3]
  exact hm4

/-- C5 witness: a concrete incomplete model with a null initial state, an
empty accepting set and one transition survives the round trip. -/
theorem C5_witness :
    deserialize (serialize ⟨{['q']}, {'a'}, none, ∅, [((['q'],'a'),['q'])]⟩
        [['q']] ['a'] []) =
      .ok ⟨{['q']}, {'a'}, none, ∅, [((['q'],'a'),['q'])]⟩ :=
  C5_roundtrip _ _ _ _ (by decide) (by decide) (by decide)
    (by intro q0 h; cases h) (by decide) (by decide) (by decide)

/-- A key without a comma has no last comma to split at. -/
theorem splitLastComma_eq_none : ∀ s : Str, ',' ∉ s → splitLastComma s = none := by
  intro s
  induction s with
  | nil => intro _; rfl
  | cons c rest ih =>
    intro h
    rw [splitLastComma, ih (fun hmem => h (List.mem_cons_of_mem _ hmem))]
    rw [if_neg (fun hc => h (List.mem_cons.mpr (Or.inl hc.symm)))]

/-- Splitting at the last comma recovers the two sides of the separator, no
matter how many commas the left side contains, as long as the right side
contains none. -/
theorem splitLastComma_append : ∀ (f s : Str), ',' ∉ s →
    splitLastComma (f ++ [','] ++ s) = some (f, s) := by
  intro f
  induction f with
  | nil =>
    intro s hs
    rw [List.nil_append, List.singleton_append, splitLastComma,
      splitLastComma_eq_none s hs]
    simp
  | cons c f2 ih =>
    intro s hs
    rw [List.cons_append, List.cons_append, splitLastComma, ih s hs]

/-- The legacy map encoding of a transition list decodes exactly like its
canonical list encoding, provided no symbol is itself a comma. -/
theorem loadTransMap_map_encoded : ∀ (L : List ((Str × Char) × Str)) (m : AFD),
    (∀ e ∈ L, e.1.2 ≠ ',') →
    loadTransMap m (L.map fun e => (e.1.1 ++ [','] ++ [e.1.2], e.2)) =
      loadTransList m (L.map fun e => (e.1.1, e.1.2, e.2)) := by
  intro L
  induction L with
  | nil => intro m _; rfl
  | cons e rest ih =>
    intro m hsym
    rcases e with ⟨⟨f, c⟩, t⟩
    have hc : c ≠ ',' := hsym _ (List.mem_cons_self ..)
    rw [List.map_cons, List.map_cons, loadTransMap, loadTransList,
      splitLastComma_append f [c] (by simpa using fun h => hc h.symm)]
    simp only
    rcases hadd : add_transition m f c t with ⟨m2, err⟩
    rcases err with _ | e2
    · exact ih m2 (fun x hx => hsym x (List.mem_cons_of_mem _ hx))
    · rfl

/-- C6: a legacy map-encoded document deserializes to the same result as the
equivalent list-encoded document — splitting each key at its last comma, so
state names containing commas decode correctly — and a legacy key with no
comma fails deserialization with the format error rather than crashing. -/
theorem C6_legacy_decode (sl : List Str) (al : List Char) (ini : Option Str)
    (accl : List Str) (L : List ((Str × Char) × Str)) (m : AFD) (key t : Str)
    (rest : List (Str × Str))
    (hsym : ∀ e ∈ L, e.1.2 ≠ ',') (hkey : ',' ∉ key) :
    deserialize ⟨sl, al, ini, accl,
        .mapEnc (L.map fun e => (e.1.1 ++ [','] ++ [e.1.2], e.2))⟩ =
      deserialize ⟨sl, al, ini, accl, .listEnc (L.map fun e => (e.1.1, e.1.2, e.2))⟩ ∧
    loadTransMap m ((key, t) :: rest) = .error "Formato de transicion invalido" := by
  constructor
  · simp only [deserialize]
    rcases hI : loadInitial (loadSymbols (loadStates emptyAFD sl) al) ini with eI | m2
    · simp only [hI]
    · simp only [hI]
      rcases hA : loadAccepting m2 accl with eA | m3
      · simp only [hA]
      · simp only [hA]
        exact loadTransMap_map_encoded L m3 hsym
  · rw [loadTransMap, splitLastComma_eq_none key hkey]

/-- C6 witness: a state name containing a comma round-trips through the
legacy encoding, and the comma-free key "q" is rejected. -/
theorem C6_witness :
    deserialize ⟨[['a',',','b'], ['q']], ['x'], some ['q'], [],
        .mapEnc [(['a',',','b'] ++ [','] ++ ['x'], ['q'])]⟩ =
      deserialize ⟨[['a',',','b'], ['q']], ['x'], some ['q'], [],
        .listEnc [(['a',',','b'], 'x', ['q'])]⟩ ∧
    loadTransMap emptyAFD [(['q'], ['q'])] = .error "Formato de transicion invalido" :=
  C6_legacy_decode [['a',',','b'], ['q']] ['x'] (some ['q']) []
    [((['a',',','b'], 'x'), ['q'])] emptyAFD ['q'] ['q'] []
    (by decide) (by decide)

/-- An entry of a dict after insertion is the inserted pair or an original
entry. -/
theorem mem_dictInsert : ∀ (l : List ((Str × Char) × Str)) (k : Str × Char) (v : Str)
    (e : (Str × Char) × Str), e ∈ dictInsert l k v → e = (k, v) ∨ e ∈ l := by
  intro l
  induction l with
  | nil =>
    intro k v e he
    rw [dictInsert, List.mem_singleton] at he
    exact Or.inl he
  | cons p rest ih =>
    intro k v e he
    rcases p with ⟨k1, v1⟩
    rw [dictInsert] at he
    by_cases hk : k1 = k
    · rw [if_pos hk] at he
      rcases List.mem_cons.mp he with he | he
      · exact Or.inl he
      · exact Or.inr (List.mem_cons_of_mem _ he)
    · rw [if_neg hk] at he
      rcases List.mem_cons.mp he with he | he
      · rw [he]
        exact Or.inr (List.mem_cons_self ..)
      · rcases ih k v e he with h | h
        · exact Or.inl h
        · exact Or.inr (List.mem_cons_of_mem _ h)

/-- The kept component of `add_accepting_state` changes no field but the
accepting set. -/
theorem add_accepting_state_fst_fields (m : AFD) (s : Str) :
    (add_accepting_state m s).1.states = m.states ∧
    (add_accepting_state m s).1.alphabet = m.alphabet ∧
    (add_accepting_state m s).1.initial_state = m.initial_state ∧
    (add_accepting_state m s).1.transitions = m.transitions := by
  unfold add_accepting_state
  split_ifs <;> exact ⟨rfl, rfl, rfl, rfl⟩

/-- The kept component of `add_transition` changes no field but the dict. -/
theorem add_transition_fst_fields (m : AFD) (f : Str) (c : Char) (t : Str) :
    (add_transition m f c t).1.states = m.states ∧
    (add_transition m f c t).1.alphabet = m.alphabet ∧
    (add_transition m f c t).1.initial_state = m.initial_state ∧
    (add_transition m f c t).1.accepting_states = m.accepting_states := by
  unfold add_transition
  split_ifs <;> exact ⟨rfl, rfl, rfl, rfl⟩

/-- The accepting-listbox loop keeps every other field. -/
theorem editorAccepting_fields : ∀ (l : List Str) (m : AFD),
    (editorAccepting m l).states = m.states ∧
    (editorAccepting m l).alphabet = m.alphabet ∧
    (editorAccepting m l).initial_state = m.initial_state ∧
    (editorAccepting m l).transitions = m.transitions := by
  intro l
  induction l with
  | nil => intro m; exact ⟨rfl, rfl, rfl, rfl⟩
  | cons s rest ih =>
    intro m
    rw [editorAccepting]
    split_ifs with hg
    · rcases ih (add_accepting_state m s).1 with ⟨h1, h2, h3, h4⟩
      rcases add_accepting_state_fst_fields m s with ⟨g1, g2, g3, g4⟩
      exact ⟨h1.trans g1, h2.trans g2, h3.trans g3, h4.trans g4⟩
    · exact ih m

/-- The accepting-listbox loop only inserts registered states, so it
preserves the subset invariant. -/
theorem editorAccepting_subset : ∀ (l : List Str) (m : AFD),
    m.accepting_states ⊆ m.states →
    (editorAccepting m l).accepting_states ⊆ m.states := by
  intro l
  induction l with
  | nil => intro m h; exact h
  | cons s rest ih =>
    intro m h
    rw [editorAccepting]
    split_ifs with hg
    · have hst : (add_accepting_state m s).1.states = m.states :=
        (add_accepting_state_fst_fields m s).1
      have hsub : (add_accepting_state m s).1.accepting_states ⊆
          (add_accepting_state m s).1.states := by
        unfold add_accepting_state
        rw [if_neg (by simpa using hg.2)]
        exact Finset.insert_subset hg.2 h
      have h3 := ih (add_accepting_state m s).1 hsub
      rw [hst] at h3
      exact h3
    · exact ih m h

/-- The transitions-tree loop keeps every other field. -/
theorem editorTransitions_fields : ∀ (l : List (Str × Char × Str)) (m : AFD),
    (editorTransitions m l).states = m.states ∧
    (editorTransitions m l).alphabet = m.alphabet ∧
    (editorTransitions m l).initial_state = m.initial_state ∧
    (editorTransitions m l).accepting_states = m.accepting_states := by
  intro l
  induction l with
  | nil => intro m; exact ⟨rfl, rfl, rfl, rfl⟩
  | cons r rest ih =>
    intro m
    rw [editorTransitions]
    split_ifs with hg
    · rcases ih (add_transition m r.1 r.2.1 r.2.2).1 with ⟨h1, h2, h3, h4⟩
      rcases add_transition_fst_fields m r.1 r.2.1 r.2.2 with ⟨g1, g2, g3, g4⟩
      exact ⟨h1.trans g1, h2.trans g2, h3.trans g3, h4.trans g4⟩
    · exact ih m

/-- The transitions-tree loop only writes rows whose source and target are
registered, so every entry of the rebuilt dict references registered
states. -/
theorem editorTransitions_refs : ∀ (l : List (Str × Char × Str)) (m : AFD),
    (∀ e ∈ m.transitions, e.1.1 ∈ m.states ∧ e.2 ∈ m.states) →
    ∀ e ∈ (editorTransitions m l).transitions, e.1.1 ∈ m.states ∧ e.2 ∈ m.states := by
  intro l
  induction l with
  | nil => intro m h; exact h
  | cons r rest ih =>
    intro m h
    rw [editorTransitions]
    split_ifs with hg
    · have hst : (add_transition m r.1 r.2.1 r.2.2).1.states = m.states :=
        (add_transition_fst_fields m r.1 r.2.1 r.2.2).1
      have hrefs : ∀ e ∈ (add_transition m r.1 r.2.1 r.2.2).1.transitions,
          e.1.1 ∈ m.states ∧ e.2 ∈ m.states := by
        intro e he
        have htr : (add_transition m r.1 r.2.1 r.2.2).1.transitions =
            dictInsert m.transitions (r.1, r.2.1) r.2.2 := by
          unfold add_transition
          rw [if_neg (by simpa using hg.1), if_neg (by simpa using hg.2.2),
            if_neg (by simpa using hg.2.1)]
        rw [htr] at he
        rcases mem_dictInsert _ _ _ _ he with he2 | he2
        · rw [he2]
          exact ⟨hg.1, hg.2.2⟩
        · exact h e he2
      have := ih (add_transition m r.1 r.2.1 r.2.2).1 (by
        intro e he
        rw [hst]
        exact hrefs e he)
      rw [hst] at this
      exact this
    · exact ih m h

/-- The state set of the rebuilt model is exactly the set of non-empty
entries of the states listbox, whatever initial state the previous model
held. -/
theorem update_afd_states (prevInitial : Option Str) (E : EditorState) :
    (update_afd prevInitial E).states =
      (E.statesList.filter (fun s => s ≠ [])).toFinset := by
  unfold update_afd
  rw [(editorTransitions_fields _ _).1, (editorAccepting_fields _ _).1]
  split_ifs with hg
  · unfold set_initial_state
    split_ifs with hn
    · rw [loadSymbols_spec, loadStates_spec]
      simp
    · rw [loadSymbols_spec, loadStates_spec]
      simp
  · rw [loadSymbols_spec, loadStates_spec]
    simp

/-- The invariants needed by C9 hold of the rebuilt model: accepting states
and both ends of every transition are registered states.  No such guarantee
holds for `initial_state`, which the source never clears. -/
theorem update_afd_invariants (prevInitial : Option Str) (E : EditorState) :
    (update_afd prevInitial E).accepting_states ⊆ (update_afd prevInitial E).states ∧
    (∀ e ∈ (update_afd prevInitial E).transitions,
      e.1.1 ∈ (update_afd prevInitial E).states ∧
      e.2 ∈ (update_afd prevInitial E).states) := by
  unfold update_afd
  set m1 := loadSymbols (loadStates (⟨∅, ∅, prevInitial, ∅, []⟩ : AFD)
    (E.statesList.filter (fun s => s ≠ []))) E.alphabetList with hm1
  set m2 := (if E.initialVar ≠ [] ∧ E.initialVar ∈ m1.states
    then (set_initial_state m1 E.initialVar).1 else m1) with hm2
  have h2states : m2.states = m1.states := by
    rw [hm2]
    split_ifs with hg
    · unfold set_initial_state
      split_ifs <;> rfl
    · rfl
  have h2acc : m2.accepting_states = m1.accepting_states := by
    rw [hm2]
    split_ifs with hg
    · unfold set_initial_state
      split_ifs <;> rfl
    · rfl
  have h2tr : m2.transitions = m1.transitions := by
    rw [hm2]
    split_ifs with hg
    · unfold set_initial_state
      split_ifs <;> rfl
    · rfl
  have hm1acc : m1.accepting_states = ∅ := by
    rw [hm1, loadSymbols_spec, loadStates_spec]
  have hm1tr : m1.transitions = [] := by
    rw [hm1, loadSymbols_spec, loadStates_spec]
  have hAstates : (editorAccepting m2 E.acceptingList).states = m2.states :=
    (editorAccepting_fields _ _).1
  have hTstates : (editorTransitions (editorAccepting m2 E.acceptingList) E.transRows).states =
      (editorAccepting m2 E.acceptingList).states :=
    (editorTransitions_fields _ _).1
  refine ⟨?_, ?_⟩
  · rw [(editorTransitions_fields _ _).2.2.2, hTstates, hAstates, h2states]
    have := editorAccepting_subset E.acceptingList m2 (by
      rw [h2acc, hm1acc]
      exact Finset.empty_subset _)
    rw [h2states] at this
    exact this
  · intro e he
    rw [hTstates, hAstates, h2states]
    refine editorTransitions_refs E.transRows (editorAccepting m2 E.acceptingList) ?_ e he |>.imp ?_ ?_
    · intro x hx
      rw [(editorAccepting_fields _ _).2.2.2, h2tr, hm1tr] at hx
      cases hx
    · intro h
      rw [hAstates, h2states] at h
      exact h
    · intro h
      rw [hAstates, h2states] at h
      exact h

/-- Deleting the selected index of a duplicate-free listbox removes its
entry from the list entirely. -/
theorem not_mem_eraseIdx_of_nodup : ∀ (l : List Str) (i : Nat) (s : Str),
    l.Nodup → l.get? i = some s → s ∉ l.eraseIdx i := by
  intro l
  induction l with
  | nil => intro i s _ hget; cases hget
  | cons a l2 ih =>
    intro i s hnd hget
    rcases i with _ | i
    · rw [List.get?] at hget
      injection hget with hget2
      rw [List.eraseIdx_cons_zero, ← hget2]
      exact (List.nodup_cons.mp hnd).1
    · rw [List.get?] at hget
      rw [List.eraseIdx_cons_succ]
      intro hmem
      rcases List.mem_cons.mp hmem with hmem | hmem
      · have hs : s ∈ l2 := List.get?_mem hget
        exact (List.nodup_cons.mp hnd).1 (hmem ▸ hs)
      · exact ih i s (List.nodup_cons.mp hnd).2 hget hmem

/-- C9: removing the state selected in the states listbox rebuilds a model
in which that state is gone from the state set and no accepting-state entry
or transition endpoint references it, whatever initial state the previous
model carried over. -/
theorem C9_remove_state_cascades (prevInitial : Option Str) (E : EditorState)
    (i : Nat) (s : Str)
    (hnd : E.statesList.Nodup) (hget : E.statesList.get? i = some s) :
    s ∉ (update_afd prevInitial (editor_remove_state E i)).states ∧
    s ∉ (update_afd prevInitial (editor_remove_state E i)).accepting_states ∧
    ∀ e ∈ (update_afd prevInitial (editor_remove_state E i)).transitions,
      e.1.1 ≠ s ∧ e.2 ≠ s := by
  have hout : s ∉ E.statesList.eraseIdx i := not_mem_eraseIdx_of_nodup _ i s hnd hget
  have hst : s ∉ (update_afd prevInitial (editor_remove_state E i)).states := by
    rw [update_afd_states]
    intro hmem
    rw [List.mem_toFinset] at hmem
    exact hout (List.mem_of_mem_filter hmem)
  rcases update_afd_invariants prevInitial (editor_remove_state E i) with ⟨hacc, htr⟩
  refine ⟨hst, fun h => hst (hacc h), fun e he => ⟨?_, ?_⟩⟩
  · intro h
    exact hst (h ▸ (htr e he).1)
  · intro h
    exact hst (h ▸ (htr e he).2)

/-- C9 witness: removing the second state of a concrete editor form drops it
from the states, the accepting list and both transition rows that mention
it. -/
theorem C9_witness :
    ['q','1'] ∉ (update_afd (some ['q','0']) (editor_remove_state
      ⟨[['q','0'], ['q','1']], ['a'], ['q','0'], [['q','1']],
        [(['q','0'],'a',['q','1']), (['q','1'],'a',['q','1'])]⟩ 1)).states ∧
    ['q','1'] ∉ (update_afd (some ['q','0']) (editor_remove_state
      ⟨[['q','0'], ['q','1']], ['a'], ['q','0'], [['q','1']],
        [(['q','0'],'a',['q','1']), (['q','1'],'a',['q','1'])]⟩ 1)).accepting_states ∧
    ∀ e ∈ (update_afd (some ['q','0']) (editor_remove_state
      ⟨[['q','0'], ['q','1']], ['a'], ['q','0'], [['q','1']],
        [(['q','0'],'a',['q','1']), (['q','1'],'a',['q','1'])]⟩ 1)).transitions,
      e.1.1 ≠ ['q','1'] ∧ e.2 ≠ ['q','1'] :=
  C9_remove_state_cascades (some ['q','0'])
    ⟨[['q','0'], ['q','1']], ['a'], ['q','0'], [['q','1']],
      [(['q','0'],'a',['q','1']), (['q','1'],'a',['q','1'])]⟩ 1 ['q','1']
    (by decide) (by decide)

/-- The symbol-position lexicographic order is irreflexive. -/
theorem lexLtB_irrefl (alist : List Char) : ∀ s : Str, lexLtB alist s s = false := by
  intro s
  induction s with
  | nil => rfl
  | cons c rest ih =>
    rw [lexLtB, if_pos rfl]
    exact ih

/-- A strict comparison between equal-length strings survives appending
arbitrary suffixes. -/
theorem lexLtB_append : ∀ (s t u v : Str), s.length = t.length →
    lexLtB alist s t = true → lexLtB alist (s ++ u) (t ++ v) = true := by
  intro s
  induction s with
  | nil =>
    intro t u v hlen h
    rcases t with _ | ⟨b, t2⟩
    · rw [lexLtB] at h
      cases h
    · cases hlen
  | cons a s2 ih =>
    intro t u v hlen h
    rcases t with _ | ⟨b, t2⟩
    · cases hlen
    · rw [lexLtB] at h
      rw [List.cons_append, List.cons_append, lexLtB]
      by_cases hab : a = b
      · rw [if_pos hab] at h ⊢
        exact ih t2 u v (by simpa using hlen) h
      · rw [if_neg hab] at h ⊢
        exact h

/-- Appending symbols in list order to the same stem produces strictly
ordered strings. -/
theorem lexLtB_append_sym : ∀ (h : Str) (c1 c2 : Char),
    symIdx alist c1 < symIdx alist c2 →
    lexLtB alist (h ++ [c1]) (h ++ [c2]) = true := by
  intro h
  induction h with
  | nil =>
    intro c1 c2 hidx
    have hne : c1 ≠ c2 := by
      intro he
      rw [he] at hidx
      exact Nat.lt_irrefl _ hidx
    rw [List.nil_append, List.nil_append, lexLtB, if_neg hne]
    simpa using hidx
  | cons a rest ih =>
    intro c1 c2 hidx
    rw [List.cons_append, List.cons_append, lexLtB, if_pos rfl]
    exact ih c1 c2 hidx

/-- A duplicate-free list is strictly ordered by element position. -/
theorem pairwise_symIdx (alist : List Char) (hnd : alist.Nodup) :
    List.Pairwise (fun c d => symIdx alist c < symIdx alist d) alist := by
  rw [List.pairwise_iff_get]
  intro i j hij
  have hi : symIdx alist (alist.get i) = i := by
    unfold symIdx
    exact List.indexOf_getElem hnd i.1 i.2
  have hj : symIdx alist (alist.get j) = j := by
    unfold symIdx
    exact List.indexOf_getElem hnd j.1 j.2
  rw [hi, hj]
  exact hij

/-- Characterization of the successor entries of a BFS node. -/
theorem mem_childrenOf {m : AFD} {alist : List Char} {s q : Str} {x : Str × Str} :
    x ∈ childrenOf m alist s q ↔
      ∃ c ∈ alist, dictGet m.transitions (q, c) = some x.2 ∧ x.1 = s ++ [c] := by
  unfold childrenOf
  rw [List.mem_filterMap]
  constructor
  · rintro ⟨c, hc, hx⟩
    rcases hg : dictGet m.transitions (q, c) with _ | q2
    · rw [hg] at hx
      cases hx
    · rw [hg] at hx
      injection hx with hx2
      refine ⟨c, hc, ?_, ?_⟩
      · rw [hg, ← hx2]
      · rw [← hx2]
  · rintro ⟨c, hc, hg, hx⟩
    refine ⟨c, hc, ?_⟩
    rw [hg]
    simp only [Option.map_some']
    rw [← hx]

/-- Extending a run by one symbol composes the final state with one
transition lookup. -/
theorem runState_append_sym (m : AFD) : ∀ (u : Str) (q : Str) (c : Char),
    runState m q (u ++ [c]) =
      (runState m q u).bind fun p => dictGet m.transitions (p, c) := by
  intro u
  induction u with
  | nil =>
    intro q c
    rcases hg : dictGet m.transitions (q, c) with _ | q2 <;> simp [runState, hg]
  | cons d u2 ih =>
    intro q c
    rcases hg : dictGet m.transitions (q, d) with _ | q2 <;> simp [runState, hg, ih]

/-- A successful run has a trace of the same final state. -/
theorem runTrace_of_runState (m : AFD) : ∀ (u : Str) (q p : Str),
    runState m q u = some p → ∃ tr, runTrace m q u = some (p, tr) := by
  intro u
  induction u with
  | nil =>
    intro q p h
    rw [runState] at h
    injection h with h2
    exact ⟨[], by rw [runTrace, h2]⟩
  | cons c u2 ih =>
    intro q p h
    rw [runState] at h
    rcases hg : dictGet m.transitions (q, c) with _ | q2 <;> rw [hg] at h
    · cases h
    · rcases ih q2 p h with ⟨tr, htr⟩
      refine ⟨(q, c, q2) :: tr, ?_⟩
      rw [runTrace]
      simp only [hg, htr]

/-- The successor entries of one node are queue-ordered: same depth,
strictly ordered by the appended symbol's position in the alphabet list. -/
theorem pairwise_childrenOf (m : AFD) (alist : List Char) (hnd : alist.Nodup) (s q : Str) :
    List.Pairwise (queueRel alist) (childrenOf m alist s q) := by
  unfold childrenOf
  refine List.Pairwise.filterMap _ ?_ (pairwise_symIdx alist hnd)
  intro c1 c2 hidx b1 hb1 b2 hb2
  rcases Option.map_eq_some'.mp hb1 with ⟨p1, _, hb1e⟩
  rcases Option.map_eq_some'.mp hb2 with ⟨p2, _, hb2e⟩
  have h1 : b1.1 = s ++ [c1] := by rw [← hb1e]
  have h2 : b2.1 = s ++ [c2] := by rw [← hb2e]
  have hl1 : b1.1.length = s.length + 1 := by rw [h1]; simp
  have hl2 : b2.1.length = s.length + 1 := by rw [h2]; simp
  refine ⟨by omega, by omega, fun _ => ?_, fun h => absurd h (by omega)⟩
  rw [h1, h2]
  exact lexLtB_append_sym s c1 c2 hidx

/-- Expanding the head of an ordered queue keeps the queue ordered. -/
theorem pairwise_queue_step (m : AFD) (alist : List Char) (hnd : alist.Nodup)
    (s q : Str) (rest : List (Str × Str))
    (hpw : List.Pairwise (queueRel alist) ((s, q) :: rest)) :
    List.Pairwise (queueRel alist) (rest ++ childrenOf m alist s q) := by
  rcases List.pairwise_cons.mp hpw with ⟨hhead, hrest⟩
  rw [List.pairwise_append]
  refine ⟨hrest, pairwise_childrenOf m alist hnd s q, ?_⟩
  intro a ha b hb
  rcases mem_childrenOf.mp hb with ⟨c, _, _, hb1⟩
  rcases hhead a ha with ⟨h1, h2, h3, h4⟩
  have h1b : s.length ≤ a.1.length := h1
  have h2b : a.1.length ≤ s.length + 1 := h2
  have hblen : b.1.length = s.length + 1 := by rw [hb1]; simp
  refine ⟨by omega, by omega, fun hlen => ?_, fun hlen => ?_⟩
  · have hane : a.1 ≠ [] := by
      intro h0
      rw [h0] at hlen
      simp at hlen
      omega
    have h4b := h4 (show a.1.length = s.length + 1 by omega)
    have happ := lexLtB_append a.1.dropLast s [a.1.getLast hane] [c]
      (by simp only [List.length_dropLast]; omega) h4b
    rw [List.dropLast_concat_getLast hane] at happ
    rw [hb1]
    exact happ
  · have h3b := h3 (show s.length = a.1.length by omega)
    rw [hb1, List.dropLast_concat]
    exact h3b

/-- One expansion step of the BFS preserves the loop invariant. -/
theorem bfsInv_step (m : AFD) (alist : List Char) (q0 : Str) (hnd : alist.Nodup)
    (hsub : ∀ c ∈ alist, c ∈ m.alphabet) (s q : Str) (rest : List (Str × Str))
    (acc : List Str)
    (hinv : bfsInv m alist q0 ((s, q) :: rest) acc) :
    bfsInv m alist q0 (rest ++ childrenOf m alist s q)
      (if q ∈ m.accepting_states ∧ s ≠ [] then acc ++ [s] else acc) := by
  rcases hinv with ⟨hpw, hacc, hcross, hrun, hgood⟩
  have hhead := (List.pairwise_cons.mp hpw).1
  have hrunhead := hrun (s, q) (List.mem_cons_self ..)
  have hQpw := pairwise_queue_step m alist hnd s q rest hpw
  have hrun2 : ∀ t ∈ rest ++ childrenOf m alist s q,
      runState m q0 t.1 = some t.2 ∧ ∀ c ∈ t.1, c ∈ m.alphabet := by
    intro t ht
    rcases List.mem_append.mp ht with ht | ht
    · exact hrun t (List.mem_cons_of_mem _ ht)
    · rcases mem_childrenOf.mp ht with ⟨c, hc, hg, ht1⟩
      constructor
      · rw [ht1, runState_append_sym, hrunhead.1, Option.some_bind]
        exact hg
      · intro c2 hc2
        rw [ht1] at hc2
        rcases List.mem_append.mp hc2 with hc2 | hc2
        · exact hrunhead.2 c2 hc2
        · rw [List.mem_singleton] at hc2
          rw [hc2]
          exact hsub c hc
  have hcrossOld : ∀ x ∈ acc, ∀ t ∈ rest ++ childrenOf m alist s q, accRel alist x t.1 := by
    intro x hx t ht
    rcases List.mem_append.mp ht with ht | ht
    · exact hcross x hx t (List.mem_cons_of_mem _ ht)
    · rcases mem_childrenOf.mp ht with ⟨c, _, _, ht1⟩
      have hxs := hcross x hx (s, q) (List.mem_cons_self ..)
      have hxs1 : x.length ≤ s.length := hxs.1
      have htlen : t.1.length = s.length + 1 := by rw [ht1]; simp
      exact ⟨by omega, fun h => absurd h (by omega)⟩
  have hcrossS : ∀ t ∈ rest ++ childrenOf m alist s q, accRel alist s t.1 := by
    intro t ht
    rcases List.mem_append.mp ht with ht | ht
    · rcases hhead t ht with ⟨h1, _, h3, _⟩
      exact ⟨h1, h3⟩
    · rcases mem_childrenOf.mp ht with ⟨c, _, _, ht1⟩
      have htlen : t.1.length = s.length + 1 := by rw [ht1]; simp
      exact ⟨by omega, fun h => absurd h (by omega)⟩
  by_cases hcond : q ∈ m.accepting_states ∧ s ≠ []
  · rw [if_pos hcond]
    refine ⟨hQpw, ?_, ?_, hrun2, ?_⟩
    · rw [List.pairwise_append]
      refine ⟨hacc, List.pairwise_singleton .., ?_⟩
      intro x hx y hy
      rw [List.mem_singleton] at hy
      rw [hy]
      exact hcross x hx (s, q) (List.mem_cons_self ..)
    · intro x hx t ht
      rcases List.mem_append.mp hx with hx | hx
      · exact hcrossOld x hx t ht
      · rw [List.mem_singleton] at hx
        rw [hx]
        exact hcrossS t ht
    · intro x hx
      rcases List.mem_append.mp hx with hx | hx
      · exact hgood x hx
      · rw [List.mem_singleton] at hx
        rw [hx]
        exact ⟨⟨q, hrunhead.1, hcond.1⟩, hrunhead.2, hcond.2⟩
  · rw [if_neg hcond]
    exact ⟨hQpw, hacc, hcrossOld, hrun2, hgood⟩

/-- Discarding a visited head of the queue preserves the loop invariant. -/
theorem bfsInv_skip (m : AFD) (alist : List Char) (q0 : Str) (e : Str × Str)
    (rest : List (Str × Str)) (acc : List Str)
    (hinv : bfsInv m alist q0 (e :: rest) acc) :
    bfsInv m alist q0 rest acc := by
  rcases hinv with ⟨hpw, hacc, hcross, hrun, hgood⟩
  exact ⟨(List.pairwise_cons.mp hpw).2, hacc,
    fun x hx t ht => hcross x hx t (List.mem_cons_of_mem _ ht),
    fun t ht => hrun t (List.mem_cons_of_mem _ ht), hgood⟩

/-- Whenever the BFS loop returns, its output is an ordered list of
non-empty accepted strings over the alphabet. -/
theorem bfs_sound (m : AFD) (alist : List Char) (q0 : Str) (maxCount : Nat)
    (hnd : alist.Nodup) (hsub : ∀ c ∈ alist, c ∈ m.alphabet) :
    ∀ (fuel : Nat) (queue : List (Str × Str)) (visited : Finset (Str × Nat))
      (acc res : List Str),
      bfsInv m alist q0 queue acc →
      bfs m alist maxCount fuel queue visited acc = some res →
      List.Pairwise (accRel alist) res ∧
      ∀ s ∈ res, (∃ p, runState m q0 s = some p ∧ p ∈ m.accepting_states) ∧
        (∀ c ∈ s, c ∈ m.alphabet) ∧ s ≠ [] := by
  intro fuel
  induction fuel with
  | zero =>
    intro queue visited acc res _ hres
    cases hres
  | succ fuel ih =>
    intro queue visited acc res hinv hres
    rcases queue with _ | ⟨⟨s, q⟩, rest⟩
    · rw [bfs] at hres
      injection hres with hres2
      rw [← hres2]
      exact ⟨hinv.2.1, hinv.2.2.2.2⟩
    · rw [bfs] at hres
      by_cases hfull : maxCount ≤ acc.length
      · rw [if_pos hfull] at hres
        injection hres with hres2
        rw [← hres2]
        exact ⟨hinv.2.1, hinv.2.2.2.2⟩
      · rw [if_neg hfull] at hres
        by_cases hvis : (q, s.length) ∈ visited
        · rw [if_pos hvis] at hres
          exact ih rest visited acc res (bfsInv_skip m alist q0 (s, q) rest acc hinv) hres
        · rw [if_neg hvis] at hres
          exact ih _ _ _ res (bfsInv_step m alist q0 hnd hsub s q rest acc hinv) hres

/-- On a valid model the generator is the fueled BFS seeded with the empty
string at the initial state. -/
theorem generate_eq_bfs (m : AFD) (alist : List Char) (maxCount fuel : Nat) (q0 : Str)
    (hval : is_valid m = true) (hq0 : m.initial_state = some q0) :
    generate_accepted_strings m alist maxCount fuel =
      (bfs m alist maxCount fuel [([], q0)] ∅ []).map (List.take maxCount) := by
  unfold generate_accepted_strings
  rw [if_neg (by rw [hval]; intro h; cases h)]
  simp only [hq0]

/-- The BFS starts in the invariant. -/
theorem bfsInv_start (m : AFD) (alist : List Char) (q0 : Str) :
    bfsInv m alist q0 [([], q0)] [] := by
  refine ⟨List.pairwise_singleton .., List.Pairwise.nil, ?_, ?_, ?_⟩
  · intro s hs
    cases hs
  · intro t ht
    rw [List.mem_singleton] at ht
    rw [ht]
    exact ⟨rfl, fun c hc => absurd hc (List.not_mem_nil c)⟩
  · intro s hs
    cases hs

/-- Shared conclusion of the two enumeration claims: whatever the generator
returns on a valid model is shortlex-ordered for the materialized alphabet
list, and consists of non-empty accepted strings. -/
theorem generate_sound (m : AFD) (alist : List Char) (maxCount fuel : Nat) (res : List Str)
    (hval : is_valid m = true) (hnd : alist.Nodup)
    (hsub : ∀ c ∈ alist, c ∈ m.alphabet)
    (hgen : generate_accepted_strings m alist maxCount fuel = some res) :
    res.length ≤ maxCount ∧
    List.Pairwise (accRel alist) res ∧
    (∀ s ∈ res, (∃ p, runState m (m.initial_state.getD []) s = some p ∧
      p ∈ m.accepting_states) ∧ (∀ c ∈ s, c ∈ m.alphabet) ∧ s ≠ []) := by
  rcases ((is_valid_iff m).mp hval).2.2.1 with ⟨q0, hq0, _⟩
  rw [generate_eq_bfs m alist maxCount fuel q0 hval hq0] at hgen
  rcases Option.map_eq_some'.mp hgen with ⟨res0, hbfs, htake⟩
  rcases bfs_sound m alist q0 maxCount hnd hsub fuel _ ∅ [] res0
    (bfsInv_start m alist q0) hbfs with ⟨hord, hprops⟩
  refine ⟨?_, ?_, ?_⟩
  · rw [← htake]
    exact List.length_take_le ..
  · rw [← htake]
    exact List.Pairwise.sublist (List.take_sublist ..) hord
  · intro s hs
    rw [← htake] at hs
    have hs0 := hprops s (List.mem_of_mem_take hs)
    rw [hq0]
    exact hs0

/-- C4: on a valid model the generator returns at most `limit` strings, in
non-decreasing length order, without duplicates, each of which evaluates to
accepted, and the empty string is never among them. -/
theorem C4_generated_strings (m : AFD) (alist : List Char) (maxCount fuel : Nat)
    (res : List Str)
    (hval : is_valid m = true) (hnd : alist.Nodup)
    (hsub : ∀ c ∈ alist, c ∈ m.alphabet)
    (hgen : generate_accepted_strings m alist maxCount fuel = some res) :
    res.length ≤ maxCount ∧
    List.Pairwise (fun s t => s.length ≤ t.length) res ∧
    res.Nodup ∧
    (∀ s ∈ res, ∃ tr, evaluate_string m s = .ok (true, tr)) ∧
    [] ∉ res := by
  rcases generate_sound m alist maxCount fuel res hval hnd hsub hgen with
    ⟨hlen, hord, hprops⟩
  rcases ((is_valid_iff m).mp hval).2.2.1 with ⟨q0, hq0, _⟩
  refine ⟨hlen, hord.imp (fun hab => hab.1), ?_, ?_, ?_⟩
  · refine hord.imp ?_
    intro a b hab he
    have h2 := hab.2 (by rw [he])
    rw [he, lexLtB_irrefl] at h2
    cases h2
  · intro s hs
    rcases hprops s hs with ⟨⟨p, hp, hpacc⟩, hchars, _⟩
    rw [hq0] at hp
    rcases runTrace_of_runState m s q0 p hp with ⟨tr, htr⟩
    refine ⟨tr, ?_⟩
    have hall : (List.all s fun c => decide (c ∈ m.alphabet)) = true := by
      simp only [List.all_eq_true, decide_eq_true_eq]
      exact hchars
    unfold evaluate_string
    simp [hval, hq0, hall, htr, hpacc]
  · intro h
    exact (hprops [] h).2.2 rfl

/-- C4 witness: the one-state all-accepting automaton over a two-letter
alphabet with limit 3. -/
theorem C4_witness :
    ([['a'], ['a','a'], ['a','a','a']] : List Str).length ≤ 3 ∧
    List.Pairwise (fun s t => s.length ≤ t.length)
      ([['a'], ['a','a'], ['a','a','a']] : List Str) ∧
    ([['a'], ['a','a'], ['a','a','a']] : List Str).Nodup ∧
    (∀ s ∈ ([['a'], ['a','a'], ['a','a','a']] : List Str),
      ∃ tr, evaluate_string twoSymM s = .ok (true, tr)) ∧
    [] ∉ ([['a'], ['a','a'], ['a','a','a']] : List Str) :=
  C4_generated_strings twoSymM ['a','b'] 3 20 [['a'], ['a','a'], ['a','a','a']]
    (by decide) (by decide) (by decide) (by decide)

/-- C3 (corrected): on a valid model the generator's output is ordered by
non-decreasing length and, within equal length, by the lexicographic order
induced by the materialized alphabet list — the iteration order of the
alphabet set, which is not required to be sorted. -/
theorem C3_shortlex_in_list_order (m : AFD) (alist : List Char) (maxCount fuel : Nat)
    (res : List Str)
    (hval : is_valid m = true) (hnd : alist.Nodup)
    (hsub : ∀ c ∈ alist, c ∈ m.alphabet)
    (hgen : generate_accepted_strings m alist maxCount fuel = some res) :
    List.Pairwise (shortLex alist) res := by
  rcases generate_sound m alist maxCount fuel res hval hnd hsub hgen with ⟨_, hord, _⟩
  refine hord.imp ?_
  intro a b hab
  have h1 : a.length ≤ b.length := hab.1
  by_cases hlt : a.length < b.length
  · exact Or.inl hlt
  · exact Or.inr ⟨by omega, hab.2 (by omega)⟩

/-- C3 witness: the shortlex ordering at the concrete automaton and the
iteration order b before a. -/
theorem C3_witness :
    List.Pairwise (shortLex ['b','a']) [['b'], ['b','b']] :=
  C3_shortlex_in_list_order twoSymM ['b','a'] 2 20 [['b'], ['b','b']]
    (by decide) (by decide) (by decide) (by decide)

/-- C3 counterexample: on the valid automaton `twoSymM`, the iteration order
b-before-a — a legitimate materialization of `list(self.alphabet)`, listing
exactly the alphabet with no duplicates — produces a different output than
the sorted order a-before-b, so the enumeration is not derived from a
sorted alphabet ordering and does depend on set iteration order. -/
theorem C3_counterexample :
    (['b','a'] : List Char).toFinset = twoSymM.alphabet ∧
    (['b','a'] : List Char).Nodup ∧
    (['a','b'] : List Char).toFinset = twoSymM.alphabet ∧
    List.Sorted (· ≤ ·) (['a','b'] : List Char) ∧
    is_valid twoSymM = true ∧
    generate_accepted_strings twoSymM ['b','a'] 2 20 ≠
      generate_accepted_strings twoSymM ['a','b'] 2 20 := by
  decide

end Theorems

end AFDSim
